import Mathlib

/-!
atlas.diff: the diff and layout pipeline of `renderDiff`.

A shallow embedding of `src/main.go`.  Go strings are byte sequences, so a
`GoString` is a list of bytes; a string literal of the source is written as the
list of its UTF-8 bytes.  Functions of the source that can panic
(`strings.Repeat` with a negative count, a slice expression out of range)
return `Option`, with `none` standing for the panic.
-/

namespace AtlasDiff

/-! ## Data model -/

/-- A Go `string`: an immutable sequence of bytes. -/
abbrev GoString := List UInt8

/-- The palette of `main.go` (lines 16-20), plus the two literal colours used
by `dimStyle` and `titleStyle`. -/
inductive Color
  | gold | silver | grey | red | green | hex333333 | hex000000
  deriving DecidableEq, Repr

/-- What the `lipgloss.NewStyle()` chains of `main.go` set on the styles that
`renderDiff` uses: a foreground colour and the bold flag. -/
structure Style where
  fg : Color
  bold : Bool
  deriving DecidableEq, Repr

def sepStyle : Style := ⟨Color.gold, true⟩
def numStyle : Style := ⟨Color.grey, false⟩
def addedStyle : Style := ⟨Color.green, false⟩
def removedStyle : Style := ⟨Color.red, false⟩
def baseStyle : Style := ⟨Color.silver, false⟩
def dimStyle : Style := ⟨Color.hex333333, false⟩

/-- The two functions of the `lipgloss` module that `renderDiff` calls.  The
module is a dependency whose source is not part of the repository, so both are
parameters of the embedding: `Width` is `lipgloss.Width` (the display width of
a string, a non-negative number of terminal cells) and `Render` is
`Style.Render`. -/
structure Lipgloss where
  Width : GoString → Nat
  Render : Style → GoString → GoString

/-- The type `diffmatchpatch.Operation` with its three values. -/
inductive Operation
  | DiffDelete | DiffInsert | DiffEqual
  deriving DecidableEq, Repr

/-- The type `diffmatchpatch.Diff`: an operation and its text.  The text is a
Go string in the library; the element type is a parameter here because the
library uses the same type for the token strings it diffs (`α = Nat`, one
number per line token) and for the line text (`α = UInt8`). -/
structure Diff (α : Type) where
  Typ : Operation
  Text : List α
  deriving DecidableEq, Repr

/-- The struct `diffLine` (lines 39-44). -/
structure diffLine where
  lNum : GoString
  left : GoString
  rNum : GoString
  right : GoString
  deriving DecidableEq, Repr

/-- The fields of the struct `model` (lines 46-57) that `renderDiff` reads or
writes.  `added` and `deleted` count rows, so they are natural numbers. -/
structure model where
  content1 : GoString
  content2 : GoString
  width : Int
  added : Nat
  deleted : Nat
  deriving DecidableEq, Repr

/-! ## String helpers of the Go standard library -/

/-- The byte of a line feed. -/
def NL : UInt8 := 10

/-- The call `strings.ReplaceAll(s, old, new)` for a one-byte `old`. -/
def ReplaceAll (s : GoString) (old : UInt8) (new : GoString) : GoString :=
  s.flatMap (fun c => if c = old then new else [c])

/-- The closure `prep` (lines 92-96): tabs become four spaces, carriage
returns are deleted. -/
def prep (s : GoString) : GoString :=
  ReplaceAll (ReplaceAll s 9 [32, 32, 32, 32]) 13 []

/-- The call `strings.TrimSuffix(s, "\n")`: one trailing line feed is removed. -/
def TrimSuffix (s : GoString) : GoString :=
  if s.getLast? = some NL then s.dropLast else s

/-- The call `strings.Split(s, "\n")`: the pieces between line feeds, one more
piece than there are line feeds. -/
def Split : GoString → List GoString
  | [] => [[]]
  | c :: cs =>
    if c = NL then [] :: Split cs
    else match Split cs with
      | [] => [[c]]
      | p :: ps => (c :: p) :: ps

/-- The decimal digits of `n`, most significant first, in front of `acc`. -/
def digitsInto : Nat → Nat → GoString → GoString
  | 0, _, acc => acc
  | fuel + 1, n, acc =>
    let acc1 := UInt8.ofNat (48 + n % 10) :: acc
    if n / 10 = 0 then acc1 else digitsInto fuel (n / 10) acc1

/-- The call `fmt.Sprintf("%d", n)` for a non-negative `n`. -/
def fmtD (n : Nat) : GoString := digitsInto (n + 1) n []

/-- The call `strings.Repeat(" ", count)`, which panics on a negative count. -/
def RepeatSpace (count : Int) : Option GoString :=
  if count < 0 then none else some (List.replicate count.toNat 32)

/-- The slice expression `s[:hi]`, which panics unless `0 ≤ hi ≤ len(s)`. -/
def sliceTo (s : GoString) (hi : Int) : Option GoString :=
  if 0 ≤ hi ∧ hi ≤ (s.length : Int) then some (s.take hi.toNat) else none

/-! ## The expansion loop of `renderDiff` (lines 103-123) -/

/-- The local variables of the expansion loop: the rows built so far, the two
line counters and the two statistics. -/
structure Expansion where
  lines : List diffLine
  lIdx : Nat
  rIdx : Nat
  added : Nat
  deleted : Nat
  deriving DecidableEq, Repr

/-- The body of the inner loop (lines 111-121): one row for the part `p` of an
operation of type `ty`. -/
def addRow (lg : Lipgloss) (ty : Operation) (st : Expansion) (p : GoString) : Expansion :=
  match ty with
  | Operation.DiffEqual =>
    { st with
      lines := st.lines ++ [⟨fmtD st.lIdx, lg.Render baseStyle p, fmtD st.rIdx, lg.Render baseStyle p⟩]
      lIdx := st.lIdx + 1
      rIdx := st.rIdx + 1 }
  | Operation.DiffDelete =>
    { st with
      lines := st.lines ++ [⟨fmtD st.lIdx, lg.Render removedStyle p, [], lg.Render dimStyle [126]⟩]
      lIdx := st.lIdx + 1
      deleted := st.deleted + 1 }
  | Operation.DiffInsert =>
    { st with
      lines := st.lines ++ [⟨[], lg.Render dimStyle [126], fmtD st.rIdx, lg.Render addedStyle p⟩]
      rIdx := st.rIdx + 1
      added := st.added + 1 }

/-- The parts of one operation (lines 108-109). -/
def parts (d : Diff UInt8) : List GoString := Split (TrimSuffix d.Text)

/-- The body of the outer loop (lines 107-122). -/
def expandOp (lg : Lipgloss) (st : Expansion) (d : Diff UInt8) : Expansion :=
  (parts d).foldl (addRow lg d.Typ) st

/-- The state at line 104-105, before the loop. -/
def Expansion.init : Expansion := ⟨[], 1, 1, 0, 0⟩

/-- The whole expansion pass (lines 103-123). -/
def expansion (lg : Lipgloss) (diffs : List (Diff UInt8)) : Expansion :=
  diffs.foldl (expandOp lg) Expansion.init

/-! ## The layout part of `renderDiff` (lines 125-153) -/

/-- The Go type `int` on a 64-bit platform: the value of an arithmetic result after
wrap-around. -/
def wrapInt (x : Int) : Int := (x + 2 ^ 63) % 2 ^ 64 - 2 ^ 63

/-- The variable `safeWidth` (lines 129-130). -/
def safeWidth (width : Int) : Int :=
  let s := wrapInt (width - 2)
  if s < 30 then 30 else s

/-- The variable `paneWidth` (line 131); the Go operator `/` truncates toward zero. -/
def paneWidth (width : Int) : Int :=
  Int.tdiv (wrapInt (safeWidth width - 15)) 2

/-- The closure `padNum` (lines 135-138). -/
def padNum (n : GoString) : Option GoString :=
  if n.length > 5 then sliceTo n 5
  else (RepeatSpace (5 - (n.length : Int))).map (fun pad => pad ++ n)

/-- The UTF-8 bytes of the ellipsis character U+2026. -/
def ellipsis : GoString := [0xE2, 0x80, 0xA6]

/-- The closure `truncate` (lines 140-146). -/
def truncate (lg : Lipgloss) (s : GoString) (w : Int) : Option GoString :=
  let w_actual : Int := (lg.Width s : Int)
  if w_actual ≤ w then (RepeatSpace (w - w_actual)).map (fun pad => s ++ pad)
  else (sliceTo s (w - 1)).map (fun cut => cut ++ ellipsis)

/-- The UTF-8 bytes of the divider character U+2503. -/
def divider : GoString := [0xE2, 0x94, 0x83]

/-- One iteration of the layout loop (lines 148-151): the output line of a
row. -/
def renderRow (lg : Lipgloss) (pw : Int) (dl : diffLine) : Option GoString := do
  let ln ← padNum dl.lNum
  let lt ← truncate lg dl.left pw
  let rn ← padNum dl.rNum
  let rt ← truncate lg dl.right pw
  let lPart := lg.Render numStyle ln ++ [32] ++ lt
  let rPart := lg.Render numStyle rn ++ [32] ++ rt
  pure (lPart ++ [32] ++ lg.Render sepStyle divider ++ [32] ++ rPart ++ [NL])

/-- The layout loop (lines 133-153): the output lines of all rows, in order. -/
def layout (lg : Lipgloss) (pw : Int) : List diffLine → Option GoString
  | [] => some []
  | dl :: rest => do
    let line ← renderRow lg pw dl
    let more ← layout lg pw rest
    pure (line ++ more)

/-- The text of the notice of line 126, U+2714 followed by
" No changes detected between files.". -/
def noChangesText : GoString :=
  [0xE2, 0x9C, 0x94, 32, 78, 111, 32, 99, 104, 97, 110, 103, 101, 115, 32, 100, 101, 116,
   101, 99, 116, 101, 100, 32, 98, 101, 116, 119, 101, 101, 110, 32, 102, 105, 108, 101,
   115, 46]

/-- The value returned at line 126. -/
def noChanges (lg : Lipgloss) : GoString :=
  [NL, 32, 32] ++ lg.Render ⟨Color.green, false⟩ noChangesText

/-- Lines 103-153 of `renderDiff`, for the operation list `diffs` that lines
98-101 produced: the returned string (`none` for a panic) and the receiver
with its statistics updated. -/
def renderOps (lg : Lipgloss) (m : model) (diffs : List (Diff UInt8)) : Option GoString × model :=
  let st := expansion lg diffs
  let m1 : model := { m with added := st.added, deleted := st.deleted }
  if st.added = 0 ∧ st.deleted = 0 then (some (noChanges lg), m1)
  else (layout lg (paneWidth m.width) st.lines, m1)

/-! ## A concrete terminal -/

/-- A continuation byte of a UTF-8 sequence. -/
def isCont (c : UInt8) : Bool := decide (128 ≤ c.toNat ∧ c.toNat < 192)

/-- Modelled from the spec: the display width of a cell text, which the source
takes from `lipgloss.Width` (a dependency, not in the repository).  The model
gives one column to every UTF-8 encoded character, which is the display width
of a text made of narrow characters without escape sequences. -/
def plainWidth (s : GoString) : Nat := (s.filter (fun c => !isCont c)).length

/-- A terminal without colour support: styles render their text unchanged. -/
def plainTerminal : Lipgloss := ⟨plainWidth, fun _ s => s⟩

/-- The longest prefix of `s` that holds at most `n` UTF-8 encoded
characters. -/
def takeChars : Nat → GoString → GoString
  | _, [] => []
  | n, c :: cs =>
    if isCont c then c :: takeChars n cs
    else match n with
      | 0 => []
      | k + 1 => c :: takeChars k cs


/-! ## Vocabulary of the statements -/

/-- The text of a block of lines: the lines joined by line feeds, followed by
a final line feed when `final` is set. -/
def blockText (lines : List GoString) (final : Bool) : GoString :=
  List.intercalate [NL] lines ++ (if final then [NL] else [])

/-- The cell of a row that shows the text of an operation of type `ty`: the
right cell for an insertion, the left cell otherwise. -/
def opCell (ty : Operation) (row : diffLine) : GoString :=
  match ty with
  | Operation.DiffInsert => row.right
  | _ => row.left

/-- The style `renderDiff` gives to the text of an operation of type `ty`. -/
def opStyle (ty : Operation) : Style :=
  match ty with
  | Operation.DiffEqual => baseStyle
  | Operation.DiffDelete => removedStyle
  | Operation.DiffInsert => addedStyle

/-- A cell text of eight two-byte characters (U+00E4). -/
def wideCell : GoString :=
  [0xC3, 0xA4, 0xC3, 0xA4, 0xC3, 0xA4, 0xC3, 0xA4, 0xC3, 0xA4, 0xC3, 0xA4, 0xC3, 0xA4, 0xC3, 0xA4]

/-- The operation list of the example of the specification, `Equal "a\n"`,
`Delete "b\n"`, `Insert "x\n"`, `Equal "c\n"`, for the contents `"a\nb\nc\n"`
and `"a\nx\nc\n"`. -/
def exampleOps : List (Diff UInt8) :=
  [⟨Operation.DiffEqual, [97, 10]⟩, ⟨Operation.DiffDelete, [98, 10]⟩,
   ⟨Operation.DiffInsert, [120, 10]⟩, ⟨Operation.DiffEqual, [99, 10]⟩]

/-- The contents `"hello\nworld\n"`. -/
def helloWorld : GoString := [104, 101, 108, 108, 111, 10, 119, 111, 114, 108, 100, 10]

/-- The contents `"world\nhello\n"`. -/
def worldHello : GoString := [119, 111, 114, 108, 100, 10, 104, 101, 108, 108, 111, 10]

/-- The operation list that the calls of lines 98-101 return for the contents
`helloWorld` and `worldHello`: `Delete "hello\nworld"`, `Insert "world\nhello"`,
`Equal "\n"`.  The cleanup of line 101 works on the characters of the line
texts and moves the line feed that ends both edits into an equality of its
own. -/
def swappedOps : List (Diff UInt8) :=
  [⟨Operation.DiffDelete, [104, 101, 108, 108, 111, 10, 119, 111, 114, 108, 100]⟩,
   ⟨Operation.DiffInsert, [119, 111, 114, 108, 100, 10, 104, 101, 108, 108, 111]⟩,
   ⟨Operation.DiffEqual, [10]⟩]

/-- The operation list that the calls of lines 98-101 return for the contents
`"b"` and `"ab"`: `Insert "a"`, `Equal "b"`, `Delete ""`.  The cleanup of line
101 turns the character that ends the insertion and starts the deletion into
an equality, and the deletion keeps the empty text. -/
def overlapOps : List (Diff UInt8) :=
  [⟨Operation.DiffInsert, [97]⟩, ⟨Operation.DiffEqual, [98]⟩, ⟨Operation.DiffDelete, []⟩]

/-- The left line numbers that are present, in row order. -/
def leftNums (rows : List diffLine) : List GoString :=
  (rows.map (fun r => r.lNum)).filter (fun n => !n.isEmpty)

/-- The right line numbers that are present, in row order. -/
def rightNums (rows : List diffLine) : List GoString :=
  (rows.map (fun r => r.rNum)).filter (fun n => !n.isEmpty)

/-- A row with a right line number and no left line number. -/
def isInsertRow (r : diffLine) : Bool := r.lNum.isEmpty && !r.rNum.isEmpty

/-- A row with a left line number and no right line number. -/
def isDeleteRow (r : diffLine) : Bool := !r.lNum.isEmpty && r.rNum.isEmpty

/-- A row with both line numbers. -/
def isEqualRow (r : diffLine) : Bool := !r.lNum.isEmpty && !r.rNum.isEmpty

/-- The number of rows the expansion loop produces from the operations of
type `ty`: one per part of each such operation. -/
def rowsFrom (ty : Operation) (diffs : List (Diff UInt8)) : Nat :=
  ((diffs.filter (fun d => d.Typ = ty)).map (fun d => (parts d).length)).sum

/-- The number that a string of decimal digits denotes. -/
def parseD (s : GoString) : Nat := s.foldl (fun a c => 10 * a + (c.toNat - 48)) 0

/-! ## The diff engine

The four calls of lines 98-101 go to the module `go-diff`, a dependency whose
source is not part of the repository.  They are modelled from the description
of the diff engine in the specification (section 4.1, steps 1 to 4). -/

/-- Modelled from the spec: the lines of a text as the diff engine tokenises
them (step 1; the tokeniser is part of `go-diff`, not in the repository).
Every line keeps its terminating line feed; the last line may lack one. -/
def splitLines : GoString → List GoString
  | [] => []
  | c :: cs =>
    if c = NL then [c] :: splitLines cs
    else match splitLines cs with
      | [] => [[c]]
      | l :: ls => (c :: l) :: ls

/-- The position of the first occurrence of a line in a table of lines (the
length of the table when the line does not occur). -/
def lineIndex : List GoString → GoString → Nat
  | [], _ => 0
  | a :: rest, l => if a = l then 0 else lineIndex rest l + 1

/-- Modelled from the spec: `DiffLinesToChars` of `go-diff` (step 1, not in
the repository).  Every distinct line gets one token, its index in the table
of distinct lines; the result is the token sequence of each text and the
table. -/
def DiffLinesToChars (text1 text2 : GoString) : List Nat × List Nat × List GoString :=
  let lineArray := (splitLines text1 ++ splitLines text2).dedup
  ((splitLines text1).map (lineIndex lineArray),
   (splitLines text2).map (lineIndex lineArray),
   lineArray)

/-- The row of `x` in the table of `lcsLength`, from the row `below` of the
rest of the first sequence. -/
def lcsRow {α : Type} [DecidableEq α] (x : α) (below : List α → Nat) : List α → Nat
  | [] => 0
  | y :: ys => if x = y then below ys + 1 else max (below (y :: ys)) (lcsRow x below ys)

/-- The length of a longest common subsequence of two sequences. -/
def lcsLength {α : Type} [DecidableEq α] : List α → List α → Nat
  | [], _ => 0
  | x :: xs, ys => lcsRow x (lcsLength xs) ys

/-- The edit script for `x :: xs` against each second sequence, from the
scripts `below` for `xs`: on a mismatch it deletes `x` when that loses nothing
of the longest common subsequence and inserts otherwise. -/
def scriptRow {α : Type} [DecidableEq α] (x : α) (xs : List α)
    (below : List α → List (Diff α)) : List α → List (Diff α)
  | [] => ⟨Operation.DiffDelete, [x]⟩ :: below []
  | y :: ys =>
    if x = y then ⟨Operation.DiffEqual, [x]⟩ :: below ys
    else if lcsLength (x :: xs) ys ≤ lcsLength xs (y :: ys) then
      ⟨Operation.DiffDelete, [x]⟩ :: below (y :: ys)
    else ⟨Operation.DiffInsert, [y]⟩ :: scriptRow x xs below ys

/-- An edit script of single elements that keeps a longest common subsequence
of the two sequences. -/
def editScript {α : Type} [DecidableEq α] : List α → List α → List (Diff α)
  | [], ys => ys.map (fun y => ⟨Operation.DiffInsert, [y]⟩)
  | x :: xs, ys => scriptRow x xs (editScript xs) ys

/-- Puts the operation `d` in front of a merged operation list: an operation
without text is dropped, an operation joins a neighbour of its own type, and
within a run of edits the deletion stays in front of the insertion. -/
def pushOp {α : Type} (d : Diff α) (out : List (Diff α)) : List (Diff α) :=
  match d.Text with
  | [] => out
  | _ :: _ =>
    match d.Typ, out with
    | Operation.DiffEqual, ⟨Operation.DiffEqual, t⟩ :: rest =>
      ⟨Operation.DiffEqual, d.Text ++ t⟩ :: rest
    | Operation.DiffDelete, ⟨Operation.DiffDelete, t⟩ :: rest =>
      ⟨Operation.DiffDelete, d.Text ++ t⟩ :: rest
    | Operation.DiffInsert, ⟨Operation.DiffInsert, u⟩ :: rest =>
      ⟨Operation.DiffInsert, d.Text ++ u⟩ :: rest
    | Operation.DiffInsert, ⟨Operation.DiffDelete, t⟩ :: ⟨Operation.DiffInsert, u⟩ :: rest =>
      ⟨Operation.DiffDelete, t⟩ :: ⟨Operation.DiffInsert, d.Text ++ u⟩ :: rest
    | Operation.DiffInsert, ⟨Operation.DiffDelete, t⟩ :: rest =>
      ⟨Operation.DiffDelete, t⟩ :: d :: rest
    | _, _ => d :: out

/-- Merges adjacent operations: every run of edits becomes at most one
deletion followed by at most one insertion, adjacent equalities become one. -/
def mergeOps {α : Type} (ds : List (Diff α)) : List (Diff α) :=
  ds.foldr pushOp []

/-- Modelled from the spec: `DiffMain` of `go-diff` (step 2, not in the
repository): a sequence diff over the two token sequences that keeps a longest
common subsequence, as a sequence of Equal, Delete and Insert spans. -/
def DiffMain (text1 text2 : List Nat) : List (Diff Nat) :=
  mergeOps (editScript text1 text2)

/-- Modelled from the spec: `DiffCharsToLines` of `go-diff` (step 3, not in
the repository): every span is mapped back from tokens to the text of its
lines. -/
def DiffCharsToLines (diffs : List (Diff Nat)) (lineArray : List GoString) :
    List (Diff UInt8) :=
  diffs.map (fun d => ⟨d.Typ, d.Text.flatMap (fun t => lineArray.getD t [])⟩)

/-- The bytes deleted and the bytes inserted by the edits at the head of an
operation list, up to the next equality. -/
def editBytes : List (Diff UInt8) → Nat × Nat
  | [] => (0, 0)
  | d :: ds =>
    match d.Typ with
    | Operation.DiffEqual => (0, 0)
    | Operation.DiffDelete => ((editBytes ds).1 + d.Text.length, (editBytes ds).2)
    | Operation.DiffInsert => ((editBytes ds).1, (editBytes ds).2 + d.Text.length)

/-- Turns every small equality into an edit: an equality that is no longer
than the edits in front of it (`before`: bytes deleted and inserted since the
last equality that was kept) and no longer than the edits behind it becomes a
deletion and an insertion of its text. -/
def dissolveSmall (before : Nat × Nat) : List (Diff UInt8) → List (Diff UInt8)
  | [] => []
  | d :: ds =>
    match d.Typ with
    | Operation.DiffEqual =>
      if 0 < d.Text.length ∧ d.Text.length ≤ max before.1 before.2
          ∧ d.Text.length ≤ max (editBytes ds).1 (editBytes ds).2 then
        ⟨Operation.DiffDelete, d.Text⟩ :: ⟨Operation.DiffInsert, d.Text⟩ ::
          dissolveSmall (before.1 + d.Text.length, before.2 + d.Text.length) ds
      else d :: dissolveSmall (0, 0) ds
    | Operation.DiffDelete => d :: dissolveSmall (before.1 + d.Text.length, before.2) ds
    | Operation.DiffInsert => d :: dissolveSmall (before.1, before.2 + d.Text.length) ds

/-- Modelled from the spec: `DiffCleanupSemantic` of `go-diff` (step 4, not in
the repository): small equalities between edits are given up and the adjacent
edits merged, so that fewer and larger blocks remain.  The model joins whole
operations and never moves a cut; it carries the reconstruction property and
the answer for identical contents, and says nothing about where the library
cuts the text of an operation (see `swappedOps` and `overlapOps`). -/
def DiffCleanupSemantic (diffs : List (Diff UInt8)) : List (Diff UInt8) :=
  mergeOps (dissolveSmall (0, 0) diffs)

/-- Lines 98-101 of `renderDiff`: the operation list of two contents. -/
def diffOps (content1 content2 : GoString) : List (Diff UInt8) :=
  let abc := DiffLinesToChars (prep content1) (prep content2)
  let diffs := DiffMain abc.1 abc.2.1
  let diffs := DiffCharsToLines diffs abc.2.2
  DiffCleanupSemantic diffs

/-- The method `renderDiff` (lines 89-154): the returned string (`none` for a
panic) and the receiver with its statistics updated. -/
def renderDiff (lg : Lipgloss) (m : model) : Option GoString × model :=
  renderOps lg m (diffOps m.content1 m.content2)

/-- The lines of a text without their line feeds: the text is cut after every
line feed, and a text that ends without a line feed ends with a last line. -/
def sourceLines (s : GoString) : List GoString :=
  (splitLines s).map TrimSuffix

/-- The text of the operations that belong to one side, in order: the
equalities and the operations of type `side`. -/
def chunks {α : Type} (side : Operation) (ds : List (Diff α)) : List (List α) :=
  (ds.filter (fun d => d.Typ = Operation.DiffEqual ∨ d.Typ = side)).map (fun d => d.Text)

/-- The rows that carry a left line number. -/
def leftRows (rows : List diffLine) : List diffLine := rows.filter (fun r => !r.lNum.isEmpty)

/-- The rows that carry a right line number. -/
def rightRows (rows : List diffLine) : List diffLine := rows.filter (fun r => !r.rNum.isEmpty)

/-- A text that ends with a line feed. -/
def EndsNL (s : GoString) : Prop := s.getLast? = some NL

/-- A sequence of texts cut at line boundaries: no text is empty, and every
text that is followed by another one ends with a line feed. -/
def GoodText : List GoString → Prop
  | [] => True
  | c :: cs => c ≠ [] ∧ (cs ≠ [] → EndsNL c) ∧ GoodText cs

/-- The text of a token sequence: the lines of its tokens, concatenated. -/
def detok (lineArray : List GoString) (toks : List Nat) : GoString :=
  toks.flatMap (fun t => lineArray.getD t [])

/-- The left cell of a row shows `line`, as an equal or as a deleted line. -/
def LeftMatch (lg : Lipgloss) (row : diffLine) (line : GoString) : Prop :=
  row.left = lg.Render baseStyle line ∨ row.left = lg.Render removedStyle line

/-- The right cell of a row shows `line`, as an equal or as an added line. -/
def RightMatch (lg : Lipgloss) (row : diffLine) (line : GoString) : Prop :=
  row.right = lg.Render baseStyle line ∨ row.right = lg.Render addedStyle line

/-! ## Invariants of the loops -/

/-- The numbering invariant of the expansion loop: the numbers issued so far
on each side are `1, ..., counter - 1`. -/
def NumInv (st : Expansion) : Prop :=
  1 ≤ st.lIdx ∧ 1 ≤ st.rIdx ∧
  leftNums st.lines = (List.range' 1 (st.lIdx - 1)).map fmtD ∧
  rightNums st.lines = (List.range' 1 (st.rIdx - 1)).map fmtD

/-- The counting invariant of the expansion loop, relative to a start state
`st0` and the numbers of rows `a`, `d`, `e` that insertions, deletions and
equalities have produced since. -/
def CountInv (st0 st : Expansion) (a d e : Nat) : Prop :=
  st.added = st0.added + a ∧ st.deleted = st0.deleted + d ∧
  st.lines.countP isInsertRow = st0.lines.countP isInsertRow + a ∧
  st.lines.countP isDeleteRow = st0.lines.countP isDeleteRow + d ∧
  st.lines.countP isEqualRow = st0.lines.countP isEqualRow + e ∧
  st.lines.length = st0.lines.length + (a + d + e)

/-- The share of an operation type in a number of new rows. -/
def share (ty target : Operation) (n : Nat) : Nat := if ty = target then n else 0

/-- An operation list without deletions and insertions. -/
def AllEqual {α : Type} (ds : List (Diff α)) : Prop :=
  ∀ d ∈ ds, d.Typ = Operation.DiffEqual


/-! # Theorems -/

/-! ## Lemmas on the string helpers -/

theorem Split_ne_nil (s : GoString) : Split s ≠ [] := by
  cases s with
  | nil => simp [Split]
  | cons c cs =>
    simp only [Split]
    split
    · simp
    · split <;> simp

theorem Split_append_nl (a b : GoString) : Split (a ++ NL :: b) = Split a ++ Split b := by
  induction a with
  | nil => simp [Split]
  | cons c cs ih =>
    by_cases hc : c = NL
    · simp [Split, hc, ih]
    · have e : Split (c :: (cs ++ NL :: b)) = match Split (cs ++ NL :: b) with
          | [] => [[c]]
          | p :: ps => (c :: p) :: ps := by simp [Split, hc]
      have e2 : Split (c :: cs) = match Split cs with
          | [] => [[c]]
          | p :: ps => (c :: p) :: ps := by simp [Split, hc]
      rw [List.cons_append, e, e2, ih]
      cases h : Split cs with
      | nil => exact absurd h (Split_ne_nil cs)
      | cons p ps => simp

theorem Split_of_no_nl (s : GoString) (h : NL ∉ s) : Split s = [s] := by
  induction s with
  | nil => simp [Split]
  | cons c cs ih =>
    have hc : c ≠ NL := fun e => h (by simp [e])
    have hcs : NL ∉ cs := fun e => h (by simp [e])
    simp [Split, hc, ih hcs]

theorem Split_length (s : GoString) : (Split s).length = s.count NL + 1 := by
  induction s with
  | nil => simp [Split]
  | cons c cs ih =>
    by_cases hc : c = NL
    · simp [Split, hc, ih]
    · have hc2 : ¬ (c == NL) = true := by simpa using hc
      simp only [Split, hc, if_false]
      cases h : Split cs with
      | nil => exact absurd h (Split_ne_nil cs)
      | cons p ps =>
        rw [h] at ih
        simp only [List.length_cons] at ih ⊢
        rw [List.count_cons, ih]
        simp [hc2]

theorem TrimSuffix_append_nl (s : GoString) : TrimSuffix (s ++ [NL]) = s := by
  simp [TrimSuffix]

theorem TrimSuffix_of_getLast (s : GoString) (h : s.getLast? ≠ some NL) : TrimSuffix s = s := by
  simp [TrimSuffix, h]

theorem TrimSuffix_append (s u : GoString) (hu : u ≠ []) :
    TrimSuffix (s ++ u) = s ++ TrimSuffix u := by
  unfold TrimSuffix
  rw [List.getLast?_append_of_ne_nil s hu]
  split
  · rw [List.dropLast_append_of_ne_nil s hu]
  · rfl

theorem digitsInto_ne_nil (fuel n : Nat) (acc : GoString) (h : acc ≠ []) :
    digitsInto fuel n acc ≠ [] := by
  induction fuel generalizing n acc with
  | zero => simpa [digitsInto] using h
  | succ k ih =>
    simp only [digitsInto]
    split
    · simp
    · exact ih _ _ (by simp)

theorem fmtD_ne_nil (n : Nat) : fmtD n ≠ [] := by
  unfold fmtD
  simp only [digitsInto]
  split
  · simp
  · exact digitsInto_ne_nil _ _ _ (by simp)

theorem digit_toNat (n : Nat) : (UInt8.ofNat (48 + n % 10)).toNat - 48 = n % 10 := by
  have h : (UInt8.ofNat (48 + n % 10)).toNat = (48 + n % 10) % 256 := by
    simp [UInt8.toNat, UInt8.ofNat, Fin.ofNat]
  rw [h]
  omega

theorem digitsInto_value (fuel n : Nat) (acc : GoString) (h : n < 10 ^ fuel) :
    (digitsInto fuel n acc).foldl (fun a c => 10 * a + (c.toNat - 48)) 0
      = acc.foldl (fun a c => 10 * a + (c.toNat - 48)) n := by
  induction fuel generalizing n acc with
  | zero =>
    have : n = 0 := by simpa using h
    subst this
    rfl
  | succ k ih =>
    simp only [digitsInto]
    split
    · rename_i h0
      rw [List.foldl_cons, digit_toNat]
      have : 10 * 0 + n % 10 = n := by omega
      rw [this]
    · have hk : n / 10 < 10 ^ k := by
        rw [pow_succ] at h
        omega
      rw [ih _ _ hk, List.foldl_cons, digit_toNat]
      have : 10 * (n / 10) + n % 10 = n := by omega
      rw [this]

theorem parseD_fmtD (n : Nat) : parseD (fmtD n) = n := by
  unfold parseD fmtD
  rw [digitsInto_value]
  · rfl
  · exact lt_of_lt_of_le (Nat.lt_pow_self (by norm_num) n) (Nat.pow_le_pow_right (by norm_num) (by omega))

/-! ## The column budget -/

theorem safeWidth_bounds (width : Int) : 30 ≤ safeWidth width ∧ safeWidth width < 2 ^ 63 := by
  unfold safeWidth wrapInt
  simp only
  constructor
  · split <;> omega
  · split <;> omega

theorem paneWidth_eq (width : Int) : paneWidth width = (safeWidth width - 15) / 2 := by
  have h := safeWidth_bounds width
  have hw : wrapInt (safeWidth width - 15) = safeWidth width - 15 := by
    unfold wrapInt
    omega
  unfold paneWidth
  rw [hw, Int.tdiv_eq_ediv (by omega) (by omega)]

theorem paneWidth_ge (width : Int) : 7 ≤ paneWidth width := by
  have h := safeWidth_bounds width
  rw [paneWidth_eq]
  omega

/-! ## Totality of the layout -/

theorem padNum_isSome (n : GoString) : (padNum n).isSome = true := by
  unfold padNum sliceTo RepeatSpace
  by_cases h : n.length > 5
  · have h2 : (5 : Int) ≤ (n.length : Int) := by omega
    simp [h, h2]
  · have h2 : ¬ (5 - (n.length : Int) < 0) := by omega
    simp [h, h2]

theorem truncate_isSome (lg : Lipgloss) (hW : ∀ s, lg.Width s ≤ s.length) (s : GoString)
    (w : Int) (hw : 1 ≤ w) : (truncate lg s w).isSome = true := by
  unfold truncate sliceTo RepeatSpace
  have hs := hW s
  by_cases h : (lg.Width s : Int) ≤ w
  · have h2 : ¬ (w - (lg.Width s : Int) < 0) := by omega
    simp [h, h2]
  · have h2 : 0 ≤ w - 1 ∧ w - 1 ≤ (s.length : Int) := by omega
    simp [h, h2]

theorem renderRow_isSome (lg : Lipgloss) (hW : ∀ s, lg.Width s ≤ s.length) (dl : diffLine)
    (w : Int) (hw : 1 ≤ w) : (renderRow lg w dl).isSome = true := by
  obtain ⟨a, ha⟩ := Option.isSome_iff_exists.mp (padNum_isSome dl.lNum)
  obtain ⟨b, hb⟩ := Option.isSome_iff_exists.mp (truncate_isSome lg hW dl.left w hw)
  obtain ⟨c, hc⟩ := Option.isSome_iff_exists.mp (padNum_isSome dl.rNum)
  obtain ⟨d, hd⟩ := Option.isSome_iff_exists.mp (truncate_isSome lg hW dl.right w hw)
  simp [renderRow, ha, hb, hc, hd]

theorem layout_isSome (lg : Lipgloss) (hW : ∀ s, lg.Width s ≤ s.length) (rows : List diffLine)
    (w : Int) (hw : 1 ≤ w) : (layout lg w rows).isSome = true := by
  induction rows with
  | nil => simp [layout]
  | cons dl rest ih =>
    obtain ⟨a, ha⟩ := Option.isSome_iff_exists.mp (renderRow_isSome lg hW dl w hw)
    obtain ⟨b, hb⟩ := Option.isSome_iff_exists.mp ih
    simp [layout, ha, hb]

theorem plainWidth_le_length (s : GoString) : plainWidth s ≤ s.length := by
  unfold plainWidth
  exact List.length_filter_le _ _

/-- C8: for every terminal width the pane width is at least 7, two panes and
the 15 columns of chrome fit in the working width `safeWidth` with at most one
column left over, and the working width is `max (width - 2) 30` whenever
`width - 2` is a value of the Go type `int`. -/
theorem C8_pane_width_budget (width : Int) :
    7 ≤ paneWidth width ∧
    2 * paneWidth width + 15 ≤ safeWidth width ∧
    safeWidth width ≤ 2 * paneWidth width + 15 + 1 ∧
    paneWidth width = (safeWidth width - 15) / 2 ∧
    (-(2 ^ 63) ≤ width - 2 ∧ width - 2 < 2 ^ 63 → safeWidth width = max (width - 2) 30) := by
  have h := safeWidth_bounds width
  have e := paneWidth_eq width
  refine ⟨paneWidth_ge width, by omega, by omega, e, ?_⟩
  intro hr
  unfold safeWidth wrapInt
  simp only
  split <;> omega

theorem C8_pane_width_budget_witness :
    (-(2 ^ 63) ≤ (0 : Int) - 2 ∧ (0 : Int) - 2 < 2 ^ 63) ∧ safeWidth 0 = max (0 - 2) 30 :=
  ⟨by decide, (C8_pane_width_budget 0).2.2.2.2 (by decide)⟩

/-- C9: the layout part of `renderDiff` never panics.  For every display-width
function that gives a string no more columns than it has bytes, every terminal
width and every list of rows, `padNum` and `truncate` return a value (no
negative repeat count, no slice out of range), the slice bound `w - 1` of the
truncating branch lies between 0 and the byte length of the cell, and the
layout loop returns the rendered block. -/
theorem C9_layout_total (lg : Lipgloss) (hW : ∀ s, lg.Width s ≤ s.length) (width : Int)
    (rows : List diffLine) :
    (∀ n, (padNum n).isSome = true) ∧
    (∀ s, (truncate lg s (paneWidth width)).isSome = true) ∧
    (∀ s, paneWidth width < (lg.Width s : Int) →
      0 ≤ paneWidth width - 1 ∧ paneWidth width - 1 ≤ (s.length : Int)) ∧
    (layout lg (paneWidth width) rows).isSome = true := by
  have hp := paneWidth_ge width
  refine ⟨padNum_isSome, fun s => truncate_isSome lg hW s _ (by omega), ?_,
    layout_isSome lg hW rows _ (by omega)⟩
  intro s hs
  have := hW s
  omega

theorem C9_layout_total_witness :
    (∀ s, plainTerminal.Width s ≤ s.length) ∧
    (layout plainTerminal (paneWidth (-4))
      [⟨[49], [], [], [126]⟩, ⟨[], [126], [49], [0xC3, 0xA4, 120, 121]⟩]).isSome = true :=
  ⟨plainWidth_le_length, (C9_layout_total plainTerminal plainWidth_le_length (-4) _).2.2.2⟩

/-! ## The closure `truncate` -/

theorem truncate_pad (lg : Lipgloss) (s : GoString) (w : Int) (h : (lg.Width s : Int) ≤ w) :
    truncate lg s w = some (s ++ List.replicate (w - (lg.Width s : Int)).toNat 32) := by
  have h2 : ¬ (w - (lg.Width s : Int) < 0) := by omega
  simp [truncate, RepeatSpace, h, h2]

theorem truncate_cut (lg : Lipgloss) (s : GoString) (w : Int) (h : w < (lg.Width s : Int))
    (hw : 1 ≤ w) (hs : lg.Width s ≤ s.length) :
    truncate lg s w = some (s.take (w - 1).toNat ++ ellipsis) := by
  have h1 : ¬ ((lg.Width s : Int) ≤ w) := by omega
  have h2 : 0 ≤ w - 1 ∧ w - 1 ≤ (s.length : Int) := by omega
  simp [truncate, sliceTo, h1, h2]

theorem plainWidth_append (s t : GoString) : plainWidth (s ++ t) = plainWidth s + plainWidth t := by
  simp [plainWidth]

theorem plainWidth_spaces (k : Nat) : plainWidth (List.replicate k 32) = k := by
  induction k with
  | zero => rfl
  | succ k ih =>
    rw [List.replicate_succ]
    have h32 : (!isCont 32) = true := by decide
    have : plainWidth (32 :: List.replicate k 32) = plainWidth (List.replicate k 32) + 1 := by
      unfold plainWidth
      rw [List.filter_cons_of_pos (p := fun c => !isCont c) h32, List.length_cons]
    omega

/-- The padding branch of `truncate` fills the pane exactly. -/
theorem truncate_pad_width (s : GoString) (w : Int) (h : (plainWidth s : Int) ≤ w) :
    ∃ t, truncate plainTerminal s w = some t ∧ (plainWidth t : Int) = w := by
  refine ⟨_, truncate_pad plainTerminal s w h, ?_⟩
  show (plainWidth (s ++ List.replicate (w - (plainWidth s : Int)).toNat 32) : Int) = w
  rw [plainWidth_append, plainWidth_spaces]
  omega

/-- C4 (evaluation at the failing input): at terminal width 30 the pane is 7
columns wide; a cell of eight two-byte characters is 8 columns wide, so it is
truncated, and the truncated cell is three characters and the ellipsis, 4
columns wide instead of 7.  The cell is the left cell of the only row when the
first file holds that one line and the second file is empty. -/
theorem C4_truncated_cell_too_narrow :
    paneWidth 30 = 7 ∧ plainWidth wideCell = 8 ∧
    truncate plainTerminal wideCell (paneWidth 30)
      = some [0xC3, 0xA4, 0xC3, 0xA4, 0xC3, 0xA4, 0xE2, 0x80, 0xA6] ∧
    plainWidth [0xC3, 0xA4, 0xC3, 0xA4, 0xC3, 0xA4, 0xE2, 0x80, 0xA6] = 4 ∧
    (expansion plainTerminal (diffOps (wideCell ++ [NL]) [])).lines.map (fun r => r.left)
      = [wideCell] ∧
    (renderDiff plainTerminal ⟨wideCell ++ [NL], [], 30, 0, 0⟩).1
      = some ([32, 32, 32, 32, 49, 32] ++ [0xC3, 0xA4, 0xC3, 0xA4, 0xC3, 0xA4, 0xE2, 0x80, 0xA6]
          ++ [32, 0xE2, 0x94, 0x83, 32] ++ [32, 32, 32, 32, 32, 32]
          ++ [126, 32, 32, 32, 32, 32, 32, 10]) := by
  decide

/-- C5 (evaluation at the failing input): for a cell of eight two-byte
characters and a pane of 7 columns `truncate` keeps the first 6 bytes, that is
3 characters, in front of the ellipsis, and not the first 6 characters. -/
theorem C5_truncate_cuts_bytes :
    plainWidth wideCell = 8 ∧
    truncate plainTerminal wideCell 7 = some (wideCell.take 6 ++ ellipsis) ∧
    takeChars 6 wideCell = wideCell.take 12 ∧
    truncate plainTerminal wideCell 7 ≠ some (takeChars 6 wideCell ++ ellipsis) := by
  decide

/-! ## One operation, one block of lines -/

theorem Split_intercalate (lines : List GoString) (hne : lines ≠ [])
    (hnl : ∀ l ∈ lines, NL ∉ l) : Split (List.intercalate [NL] lines) = lines := by
  induction lines with
  | nil => exact absurd rfl hne
  | cons l rest ih =>
    cases rest with
    | nil =>
      simpa [List.intercalate] using Split_of_no_nl l (hnl l (by simp))
    | cons l2 rest2 =>
      have e : List.intercalate [NL] (l :: l2 :: rest2)
          = l ++ NL :: List.intercalate [NL] (l2 :: rest2) := by
        simp [List.intercalate]
      rw [e, Split_append_nl, Split_of_no_nl l (hnl l (by simp)),
        ih (by simp) (fun x hx => hnl x (List.mem_cons_of_mem _ hx))]
      rfl

theorem intercalate_getLast (lines : List GoString) (hne : lines ≠ [])
    (hnl : ∀ l ∈ lines, NL ∉ l)
    (hlast : lines.getLast? ≠ some []) :
    (List.intercalate [NL] lines).getLast? ≠ some NL := by
  induction lines with
  | nil => exact absurd rfl hne
  | cons l rest ih =>
    cases rest with
    | nil =>
      have hl := hnl l (by simp)
      intro h
      have : NL ∈ l := by
        have h3 : l.getLast? = some NL := by simpa [List.intercalate] using h
        exact List.mem_of_getLast?_eq_some h3
      exact hl this
    | cons l2 rest2 =>
      have e : List.intercalate [NL] (l :: l2 :: rest2)
          = (l ++ [NL]) ++ List.intercalate [NL] (l2 :: rest2) := by
        simp [List.intercalate]
      rw [e]
      by_cases hi : List.intercalate [NL] (l2 :: rest2) = []
      · -- the remaining lines are the single empty line, which `hlast` excludes
        exfalso
        cases rest2 with
        | nil =>
          have : l2 = [] := by simpa [List.intercalate] using hi
          exact hlast (by simp [this])
        | cons l3 rest3 => simp [List.intercalate] at hi
      · rw [List.getLast?_append_of_ne_nil _ hi]
        apply ih (by simp) (fun x hx => hnl x (List.mem_cons_of_mem _ hx))
        simpa [List.getLast?_cons_cons] using hlast

theorem parts_blockText (ty : Operation) (lines : List GoString) (final : Bool)
    (hne : lines ≠ []) (hnl : ∀ l ∈ lines, NL ∉ l)
    (hlast : final = false → lines.getLast? ≠ some []) :
    parts ⟨ty, blockText lines final⟩ = lines := by
  unfold parts blockText
  cases final with
  | true =>
    simp only [if_true]
    rw [TrimSuffix_append_nl, Split_intercalate lines hne hnl]
  | false =>
    simp only [Bool.false_eq_true, if_false, List.append_nil]
    rw [TrimSuffix_of_getLast _ (intercalate_getLast lines hne hnl (hlast rfl)),
      Split_intercalate lines hne hnl]

theorem addRow_fold_lines (lg : Lipgloss) (ty : Operation) (ps : List GoString) (st : Expansion) :
    ∃ rows, (ps.foldl (addRow lg ty) st).lines = st.lines ++ rows ∧
      rows.map (opCell ty) = ps.map (lg.Render (opStyle ty)) := by
  induction ps generalizing st with
  | nil => exact ⟨[], by simp⟩
  | cons p ps ih =>
    obtain ⟨rows, h1, h2⟩ := ih (addRow lg ty st p)
    cases ty <;>
    · simp only [List.foldl_cons]
      rw [h1]
      simp only [addRow, List.append_assoc]
      refine ⟨_, rfl, ?_⟩
      simpa [opCell, opStyle] using h2

/-- The part of the expansion that the trimming of line 108 gets right: for an
operation whose text is a block of `N ≥ 1` lines without line feeds, joined by
line feeds, with the final line feed present, or omitted after a non-empty
last line, the expansion splits the text into exactly those `N` lines and
appends exactly `N` rows whose text cells are those lines, in order. -/
theorem block_expands_to_its_lines (lg : Lipgloss) (st : Expansion) (ty : Operation)
    (lines : List GoString) (final : Bool)
    (hne : lines ≠ []) (hnl : ∀ l ∈ lines, NL ∉ l)
    (hlast : final = false → lines.getLast? ≠ some []) :
    parts ⟨ty, blockText lines final⟩ = lines ∧
    ∃ rows, (expandOp lg st ⟨ty, blockText lines final⟩).lines = st.lines ++ rows ∧
      rows.length = lines.length ∧
      rows.map (opCell ty) = lines.map (lg.Render (opStyle ty)) := by
  have hp := parts_blockText ty lines final hne hnl hlast
  refine ⟨hp, ?_⟩
  obtain ⟨rows, h1, h2⟩ := addRow_fold_lines lg ty lines st
  refine ⟨rows, ?_, ?_, h2⟩
  · unfold expandOp
    rw [hp]
    exact h1
  · simpa using congrArg List.length h2

/-- C10 (evaluation at the failing input): a block of `N = 0` lines has the
empty text, and the expansion of an operation with the empty text has one
part, the empty string, and appends one row, not zero.  For the contents `"b"`
and `"ab"` the operation list ends with `Delete ""`: the loop gives it the row
with left number 2 and counts it, so `deleted = 1` and the left numbers are
1 and 2 for a first text of one line. -/
theorem C10_empty_text_gives_a_row (lg : Lipgloss) :
    blockText [] false = [] ∧
    parts ⟨Operation.DiffDelete, blockText [] false⟩ = [[]] ∧
    (∀ st : Expansion, (expandOp lg st ⟨Operation.DiffDelete, blockText [] false⟩).lines
      = st.lines ++ [⟨fmtD st.lIdx, lg.Render removedStyle [], [], lg.Render dimStyle [126]⟩]) ∧
    (expansion lg overlapOps).lines.map (fun r => (r.lNum, r.rNum))
      = [([], [49]), ([49], [50]), ([50], [])] ∧
    (expansion lg overlapOps).deleted = 1 ∧
    (expansion lg overlapOps).added = 1 ∧
    sourceLines (prep [98]) = [[98]] := by
  have hp : ∀ ty t, parts ⟨ty, t⟩ = Split (TrimSuffix t) := fun _ _ => rfl
  have h1 : Split (TrimSuffix [97]) = [[97]] := by decide
  have h2 : Split (TrimSuffix [98]) = [[98]] := by decide
  have h3 : Split (TrimSuffix []) = [[]] := by decide
  have f1 : fmtD 1 = [49] := by decide
  have f2 : fmtD 2 = [50] := by decide
  refine ⟨by decide, by decide, fun st => rfl, ?_, ?_, ?_, by decide⟩
  · simp [expansion, overlapOps, expandOp, hp, h1, h2, h3, addRow, Expansion.init, f1, f2]
  · simp [expansion, overlapOps, expandOp, hp, h1, h2, h3, addRow, Expansion.init]
  · simp [expansion, overlapOps, expandOp, hp, h1, h2, h3, addRow, Expansion.init]

/-! ## Line numbers and statistics of the expansion loop -/

theorem fmtD_isEmpty (n : Nat) : (fmtD n).isEmpty = false := by
  cases h : fmtD n with
  | nil => exact absurd h (fmtD_ne_nil n)
  | cons a b => rfl

theorem foldl_preserves {σ β : Type} (P : σ → Prop) (f : σ → β → σ)
    (h : ∀ s x, P s → P (f s x)) (l : List β) (init : σ) (h0 : P init) :
    P (l.foldl f init) := by
  induction l generalizing init with
  | nil => exact h0
  | cons x xs ih => exact ih _ (h _ _ h0)

theorem range_step (k : Nat) (h : 1 ≤ k) :
    (List.range' 1 (k + 1 - 1)).map fmtD = (List.range' 1 (k - 1)).map fmtD ++ [fmtD k] := by
  have e : k + 1 - 1 = (k - 1) + 1 := by omega
  rw [e, List.range'_concat]
  have e2 : 1 + 1 * (k - 1) = k := by omega
  rw [List.map_append, List.map_singleton, e2]

theorem NumInv_addRow (lg : Lipgloss) (ty : Operation) (st : Expansion) (p : GoString)
    (h : NumInv st) : NumInv (addRow lg ty st p) := by
  obtain ⟨h1, h2, h3, h4⟩ := h
  unfold NumInv leftNums rightNums at *
  cases ty
  · -- DiffDelete
    refine ⟨by simp [addRow], by simpa [addRow] using h2, ?_, ?_⟩
    · simp only [addRow, List.map_append, List.filter_append, h3, range_step _ h1]
      simp [fmtD_isEmpty]
    · simp only [addRow, List.map_append, List.filter_append, h4]
      simp
  · -- DiffInsert
    refine ⟨by simpa [addRow] using h1, by simp [addRow], ?_, ?_⟩
    · simp only [addRow, List.map_append, List.filter_append, h3]
      simp
    · simp only [addRow, List.map_append, List.filter_append, h4, range_step _ h2]
      simp [fmtD_isEmpty]
  · -- DiffEqual
    refine ⟨by simp [addRow], by simp [addRow], ?_, ?_⟩
    · simp only [addRow, List.map_append, List.filter_append, h3, range_step _ h1]
      simp [fmtD_isEmpty]
    · simp only [addRow, List.map_append, List.filter_append, h4, range_step _ h2]
      simp [fmtD_isEmpty]

theorem NumInv_expansion (lg : Lipgloss) (diffs : List (Diff UInt8)) :
    NumInv (expansion lg diffs) := by
  unfold expansion
  apply foldl_preserves NumInv
  · intro st d hst
    unfold expandOp
    exact foldl_preserves NumInv _ (fun s x hs => NumInv_addRow lg d.Typ s x hs) _ _ hst
  · simp [NumInv, Expansion.init, leftNums, rightNums]

theorem map_parseD_fmtD (l : List Nat) : (l.map fmtD).map parseD = l := by
  induction l with
  | nil => rfl
  | cons a rest ih => simp only [List.map_cons, parseD_fmtD, ih]

/-- C2: for every list of operations, the left line numbers present in the
rows of the expansion loop, read in row order, are the decimal strings of
`1, 2, ..., k`, where `k` is how many there are, and the right line numbers
present are the decimal strings of `1, 2, ..., j`; read as numbers they are
`1, 2, ..., k` and `1, 2, ..., j`, and the counters, which run through the
whole pass, end at `k + 1` and `j + 1`. -/
theorem C2_line_numbers_consecutive (lg : Lipgloss) (diffs : List (Diff UInt8)) :
    leftNums (expansion lg diffs).lines
      = (List.range' 1 (leftNums (expansion lg diffs).lines).length).map fmtD ∧
    rightNums (expansion lg diffs).lines
      = (List.range' 1 (rightNums (expansion lg diffs).lines).length).map fmtD ∧
    (leftNums (expansion lg diffs).lines).map parseD
      = List.range' 1 (leftNums (expansion lg diffs).lines).length ∧
    (rightNums (expansion lg diffs).lines).map parseD
      = List.range' 1 (rightNums (expansion lg diffs).lines).length ∧
    (expansion lg diffs).lIdx = (leftNums (expansion lg diffs).lines).length + 1 ∧
    (expansion lg diffs).rIdx = (rightNums (expansion lg diffs).lines).length + 1 := by
  obtain ⟨h1, h2, h3, h4⟩ := NumInv_expansion lg diffs
  have l3 : (leftNums (expansion lg diffs).lines).length = (expansion lg diffs).lIdx - 1 := by
    rw [h3]; simp
  have l4 : (rightNums (expansion lg diffs).lines).length = (expansion lg diffs).rIdx - 1 := by
    rw [h4]; simp
  refine ⟨?_, ?_, ?_, ?_, by omega, by omega⟩
  · rw [l3]; exact h3
  · rw [l4]; exact h4
  · rw [l3, h3, map_parseD_fmtD]
  · rw [l4, h4, map_parseD_fmtD]

theorem CountInv_addRow_fold (lg : Lipgloss) (ty : Operation) (ps : List GoString)
    (st0 st : Expansion) (a d e : Nat) (h : CountInv st0 st a d e) :
    CountInv st0 (ps.foldl (addRow lg ty) st)
      (a + share ty Operation.DiffInsert ps.length)
      (d + share ty Operation.DiffDelete ps.length)
      (e + share ty Operation.DiffEqual ps.length) := by
  induction ps generalizing st a d e with
  | nil => simpa [share] using h
  | cons p ps ih =>
    obtain ⟨h1, h2, h3, h4, h5, h6⟩ := h
    rw [List.foldl_cons]
    cases ty
    · have := ih (addRow lg Operation.DiffDelete st p) a (d + 1) e
        ⟨by simpa [addRow] using h1, by simp [addRow, h2]; omega,
         by simp [addRow, List.countP_append, isInsertRow, h3],
         by simp [addRow, List.countP_append, isDeleteRow, fmtD_isEmpty, h4]; omega,
         by simp [addRow, List.countP_append, isEqualRow, h5],
         by simp [addRow, h6]; omega⟩
      simp only [share, List.length_cons] at this ⊢
      simp only [reduceCtorEq, if_false, if_true, Nat.add_zero] at this ⊢
      have e1 : d + (ps.length + 1) = d + 1 + ps.length := by omega
      rw [e1]; exact this
    · have := ih (addRow lg Operation.DiffInsert st p) (a + 1) d e
        ⟨by simp [addRow, h1]; omega, by simpa [addRow] using h2,
         by simp [addRow, List.countP_append, isInsertRow, fmtD_isEmpty, h3]; omega,
         by simp [addRow, List.countP_append, isDeleteRow, h4],
         by simp [addRow, List.countP_append, isEqualRow, h5],
         by simp [addRow, h6]; omega⟩
      simp only [share, List.length_cons] at this ⊢
      simp only [reduceCtorEq, if_false, if_true, Nat.add_zero] at this ⊢
      have e1 : a + (ps.length + 1) = a + 1 + ps.length := by omega
      rw [e1]; exact this
    · have := ih (addRow lg Operation.DiffEqual st p) a d (e + 1)
        ⟨by simpa [addRow] using h1, by simpa [addRow] using h2,
         by simp [addRow, List.countP_append, isInsertRow, fmtD_isEmpty, h3],
         by simp [addRow, List.countP_append, isDeleteRow, fmtD_isEmpty, h4],
         by simp [addRow, List.countP_append, isEqualRow, fmtD_isEmpty, h5]; omega,
         by simp [addRow, h6]; omega⟩
      simp only [share, List.length_cons] at this ⊢
      simp only [reduceCtorEq, if_false, if_true, Nat.add_zero] at this ⊢
      have e1 : e + (ps.length + 1) = e + 1 + ps.length := by omega
      rw [e1]; exact this

theorem rowsFrom_cons (ty : Operation) (x : Diff UInt8) (xs : List (Diff UInt8)) :
    rowsFrom ty (x :: xs) = share x.Typ ty (parts x).length + rowsFrom ty xs := by
  unfold rowsFrom share
  by_cases h : x.Typ = ty <;> simp [List.filter_cons, h]

theorem CountInv_expansion_from (lg : Lipgloss) (diffs : List (Diff UInt8))
    (st0 st : Expansion) (a d e : Nat) (h : CountInv st0 st a d e) :
    CountInv st0 (diffs.foldl (expandOp lg) st)
      (a + rowsFrom Operation.DiffInsert diffs)
      (d + rowsFrom Operation.DiffDelete diffs)
      (e + rowsFrom Operation.DiffEqual diffs) := by
  induction diffs generalizing st a d e with
  | nil => simpa [rowsFrom] using h
  | cons x xs ih =>
    rw [List.foldl_cons]
    have := ih _ _ _ _ (CountInv_addRow_fold lg x.Typ (parts x) st0 st a d e h)
    simp only [rowsFrom_cons, ← Nat.add_assoc]
    exact this

theorem expansion_counts (lg : Lipgloss) (diffs : List (Diff UInt8)) :
    (expansion lg diffs).added = rowsFrom Operation.DiffInsert diffs ∧
    (expansion lg diffs).added = (expansion lg diffs).lines.countP isInsertRow ∧
    (expansion lg diffs).deleted = rowsFrom Operation.DiffDelete diffs ∧
    (expansion lg diffs).deleted = (expansion lg diffs).lines.countP isDeleteRow ∧
    (expansion lg diffs).lines.countP isEqualRow = rowsFrom Operation.DiffEqual diffs ∧
    (expansion lg diffs).lines.length
      = rowsFrom Operation.DiffInsert diffs + rowsFrom Operation.DiffDelete diffs
        + rowsFrom Operation.DiffEqual diffs := by
  have h := CountInv_expansion_from lg diffs Expansion.init Expansion.init 0 0 0
    (by simp [CountInv])
  have hi : Expansion.init.added = 0 ∧ Expansion.init.deleted = 0 ∧ Expansion.init.lines = [] :=
    ⟨rfl, rfl, rfl⟩
  obtain ⟨i1, i2, i3⟩ := hi
  obtain ⟨h1, h2, h3, h4, h5, h6⟩ := h
  rw [i3] at h3 h4 h5 h6
  rw [i1] at h1
  rw [i2] at h2
  simp only [List.countP_nil, List.length_nil, Nat.zero_add] at h1 h2 h3 h4 h5 h6
  unfold expansion
  refine ⟨h1, by omega, h2, by omega, h5, h6⟩

/-- C6: for every list of operations, after the expansion pass `added` is the
number of rows produced from Insert operations and also the number of rows
with a right and no left line number; `deleted` is the number of rows produced
from Delete operations and also the number of rows with a left and no right
line number; the rows produced from Equal operations are the rows with both
numbers, and every row is of one of the three kinds. -/
theorem C6_counts_match_rows (lg : Lipgloss) (diffs : List (Diff UInt8)) :
    (expansion lg diffs).added = rowsFrom Operation.DiffInsert diffs ∧
    (expansion lg diffs).added = (expansion lg diffs).lines.countP isInsertRow ∧
    (expansion lg diffs).deleted = rowsFrom Operation.DiffDelete diffs ∧
    (expansion lg diffs).deleted = (expansion lg diffs).lines.countP isDeleteRow ∧
    (expansion lg diffs).lines.countP isEqualRow = rowsFrom Operation.DiffEqual diffs ∧
    (expansion lg diffs).lines.length
      = rowsFrom Operation.DiffInsert diffs + rowsFrom Operation.DiffDelete diffs
        + rowsFrom Operation.DiffEqual diffs :=
  expansion_counts lg diffs

/-! ## Lines of a text -/

theorem splitLines_join (s : GoString) : (splitLines s).flatten = s := by
  induction s with
  | nil => rfl
  | cons c cs ih =>
    simp only [splitLines]
    split
    · simp [ih]
    · cases h : splitLines cs with
      | nil => rw [h] at ih; simp at ih; simp [← ih]
      | cons l ls => rw [h] at ih; simp at ih; simp [← ih]

theorem splitLines_eq_nil (s : GoString) : splitLines s = [] ↔ s = [] := by
  constructor
  · intro h
    have := splitLines_join s
    rw [h] at this
    simpa using this.symm
  · intro h; subst h; rfl

theorem EndsNL_append (a b : GoString) (h : EndsNL b) : EndsNL (a ++ b) := by
  unfold EndsNL at *
  have hb : b ≠ [] := by intro e; subst e; simp at h
  rw [List.getLast?_append_of_ne_nil a hb]
  exact h

theorem EndsNL_cons (c : UInt8) (l : GoString) (h : EndsNL l) : EndsNL (c :: l) :=
  EndsNL_append [c] l h

theorem splitLines_append (a b : GoString) (h : EndsNL a) :
    splitLines (a ++ b) = splitLines a ++ splitLines b := by
  induction a with
  | nil => simp [EndsNL] at h
  | cons c cs ih =>
    by_cases hcs : cs = []
    · subst hcs
      have hc : c = NL := by simpa [EndsNL] using h
      simp [splitLines, hc]
    · have h2 : EndsNL cs := by
        unfold EndsNL at *
        cases cs with
        | nil => exact absurd rfl hcs
        | cons d l2 => rwa [List.getLast?_cons_cons] at h
      have ih2 := ih h2
      by_cases hc : c = NL
      · simp [splitLines, hc, ih2]
      · have e1 : splitLines (c :: (cs ++ b)) = match splitLines (cs ++ b) with
            | [] => [[c]]
            | l :: ls => (c :: l) :: ls := by simp [splitLines, hc]
        have e2 : splitLines (c :: cs) = match splitLines cs with
            | [] => [[c]]
            | l :: ls => (c :: l) :: ls := by simp [splitLines, hc]
        rw [List.cons_append, e1, e2, ih2]
        cases h3 : splitLines cs with
        | nil => exact absurd ((splitLines_eq_nil cs).mp h3) hcs
        | cons l ls => simp

theorem TrimSuffix_cons (c : UInt8) (l : GoString) (hc : c ≠ NL) :
    TrimSuffix (c :: l) = c :: TrimSuffix l := by
  cases l with
  | nil => simp [TrimSuffix, hc]
  | cons d l2 => exact TrimSuffix_append [c] (d :: l2) (by simp)

theorem Split_TrimSuffix (s : GoString) (hs : s ≠ []) :
    Split (TrimSuffix s) = sourceLines s := by
  induction s with
  | nil => exact absurd rfl hs
  | cons c cs ih =>
    by_cases hcs : cs = []
    · subst hcs
      by_cases hc : c = NL
      · subst hc; decide
      · simp [TrimSuffix, hc, Split, sourceLines, splitLines]
    · have ih2 := ih hcs
      by_cases hc : c = NL
      · have e : TrimSuffix (c :: cs) = c :: TrimSuffix cs := TrimSuffix_append [c] cs hcs
        rw [e]
        simp only [sourceLines, splitLines, Split, hc, if_true, List.map_cons]
        subst hc
        rw [ih2, sourceLines]
        simp [TrimSuffix]
      · rw [TrimSuffix_cons c cs hc]
        have e1 : Split (c :: TrimSuffix cs) = match Split (TrimSuffix cs) with
            | [] => [[c]]
            | p :: ps => (c :: p) :: ps := by simp [Split, hc]
        have e2 : splitLines (c :: cs) = match splitLines cs with
            | [] => [[c]]
            | l :: ls => (c :: l) :: ls := by simp [splitLines, hc]
        rw [e1, ih2]
        unfold sourceLines
        rw [e2]
        cases h3 : splitLines cs with
        | nil => exact absurd ((splitLines_eq_nil cs).mp h3) hcs
        | cons l ls => simp [TrimSuffix_cons c l hc]

theorem GoodText_parts (cs : List GoString) (h : GoodText cs) :
    cs.flatMap (fun c => Split (TrimSuffix c)) = sourceLines cs.flatten := by
  induction cs with
  | nil => rfl
  | cons c rest ih =>
    obtain ⟨h1, h2, h3⟩ := h
    rw [List.flatMap_cons, ih h3, Split_TrimSuffix c h1]
    by_cases hr : rest = []
    · subst hr; simp [sourceLines, splitLines]
    · show sourceLines c ++ sourceLines rest.flatten = sourceLines (c ++ rest.flatten)
      unfold sourceLines
      rw [splitLines_append c _ (h2 hr), List.map_append]

/-! ## Merging operations -/

theorem chunks_nil {α : Type} (s : Operation) : chunks s ([] : List (Diff α)) = [] := rfl

theorem chunks_cons_on {α : Type} (s : Operation) (d : Diff α) (ds : List (Diff α))
    (h : d.Typ = Operation.DiffEqual ∨ d.Typ = s) :
    chunks s (d :: ds) = d.Text :: chunks s ds := by
  simp [chunks, List.filter_cons, h]

theorem chunks_cons_off {α : Type} (s : Operation) (d : Diff α) (ds : List (Diff α))
    (h : ¬ (d.Typ = Operation.DiffEqual ∨ d.Typ = s)) :
    chunks s (d :: ds) = chunks s ds := by
  simp [chunks, List.filter_cons, h]

theorem chunks_append {α : Type} (s : Operation) (ds es : List (Diff α)) :
    chunks s (ds ++ es) = chunks s ds ++ chunks s es := by
  simp [chunks]

theorem pushOp_nil_text {α : Type} (d : Diff α) (out : List (Diff α)) (h : d.Text = []) :
    pushOp d out = out := by
  simp [pushOp, h]

theorem pushOp_off {α : Type} (s : Operation) (d : Diff α) (out : List (Diff α))
    (h : ¬ (d.Typ = Operation.DiffEqual ∨ d.Typ = s)) :
    chunks s (pushOp d out) = chunks s out := by
  rcases d with ⟨ty, _ | ⟨a, l⟩⟩
  · simp [pushOp]
  · cases ty <;> cases s <;> simp at h <;>
      rcases out with _ | ⟨⟨oty, ot⟩, rest⟩ <;>
      first
      | (simp [pushOp, chunks]; done)
      | (cases oty <;> first
          | (simp [pushOp, chunks]; done)
          | (rcases rest with _ | ⟨⟨o2ty, o2t⟩, rest2⟩ <;> first
              | (simp [pushOp, chunks]; done)
              | (cases o2ty <;> simp [pushOp, chunks])))

theorem pushOp_on {α : Type} (s : Operation) (d : Diff α) (out : List (Diff α))
    (ht : d.Text ≠ []) (h : d.Typ = Operation.DiffEqual ∨ d.Typ = s) :
    chunks s (pushOp d out) = d.Text :: chunks s out ∨
    ∃ c cs, chunks s out = c :: cs ∧ chunks s (pushOp d out) = (d.Text ++ c) :: cs := by
  rcases d with ⟨ty, _ | ⟨a, l⟩⟩
  · exact absurd rfl ht
  · cases ty <;> cases s <;> simp at h <;>
      rcases out with _ | ⟨⟨oty, ot⟩, rest⟩ <;>
      first
      | (simp [pushOp, chunks]; done)
      | (cases oty <;> first
          | (simp [pushOp, chunks]; done)
          | (rcases rest with _ | ⟨⟨o2ty, o2t⟩, rest2⟩ <;> first
              | (simp [pushOp, chunks]; done)
              | (cases o2ty <;> simp [pushOp, chunks])))

theorem pushOp_flatten {α : Type} (v : List α → GoString)
    (hv : ∀ a b, v (a ++ b) = v a ++ v b) (hv0 : v [] = [])
    (s : Operation) (d : Diff α) (out : List (Diff α)) :
    ((chunks s (pushOp d out)).map v).flatten = ((chunks s (d :: out)).map v).flatten := by
  by_cases h : d.Typ = Operation.DiffEqual ∨ d.Typ = s
  · rw [chunks_cons_on s d out h]
    by_cases ht : d.Text = []
    · rw [pushOp_nil_text d out ht, ht]
      simp [hv0]
    · rcases pushOp_on s d out ht h with e | ⟨c, cs, e1, e2⟩
      · rw [e]
      · rw [e2, e1]
        simp [hv]
  · rw [pushOp_off s d out h, chunks_cons_off s d out h]

theorem mergeOps_flatten {α : Type} (v : List α → GoString)
    (hv : ∀ a b, v (a ++ b) = v a ++ v b) (hv0 : v [] = [])
    (s : Operation) (ds : List (Diff α)) :
    ((chunks s (mergeOps ds)).map v).flatten = ((chunks s ds).map v).flatten := by
  induction ds with
  | nil => rfl
  | cons d ds ih =>
    show ((chunks s (pushOp d (mergeOps ds))).map v).flatten = _
    rw [pushOp_flatten v hv hv0]
    by_cases h : d.Typ = Operation.DiffEqual ∨ d.Typ = s
    · rw [chunks_cons_on s d _ h, chunks_cons_on s d _ h]
      simp only [List.map_cons, List.flatten_cons, ih]
    · rw [chunks_cons_off s d _ h, chunks_cons_off s d _ h, ih]

theorem pushOp_allEqual {α : Type} (d : Diff α) (out : List (Diff α))
    (hd : d.Typ = Operation.DiffEqual) (h : AllEqual out) : AllEqual (pushOp d out) := by
  rcases d with ⟨ty, _ | ⟨a, l⟩⟩
  · simpa [pushOp] using h
  · simp only at hd
    subst hd
    rcases out with _ | ⟨⟨oty, ot⟩, rest⟩
    · simp [pushOp, AllEqual]
    · have ho : oty = Operation.DiffEqual := h ⟨oty, ot⟩ (by simp)
      subst ho
      intro x hx
      simp only [pushOp, List.mem_cons] at hx
      rcases hx with hx | hx
      · rw [hx]
      · exact h x (by simp [hx])

theorem mergeOps_allEqual {α : Type} (ds : List (Diff α)) (h : AllEqual ds) :
    AllEqual (mergeOps ds) := by
  induction ds with
  | nil => exact h
  | cons d ds ih =>
    exact pushOp_allEqual d _ (h d (by simp))
      (ih (fun x hx => h x (List.mem_cons_of_mem _ hx)))

/-! ## The edit script -/

theorem chunks_inserts {α : Type} (s : Operation) (ys : List α) :
    chunks s (ys.map (fun y => (⟨Operation.DiffInsert, [y]⟩ : Diff α)))
      = if s = Operation.DiffInsert then ys.map (fun y => [y]) else [] := by
  induction ys with
  | nil => simp [chunks]
  | cons y ys ih =>
    by_cases hs : s = Operation.DiffInsert
    · simp only [hs, if_true] at ih ⊢
      rw [List.map_cons, chunks_cons_on _ _ _ (by simp), ih]
      rfl
    · simp only [hs, if_false] at ih ⊢
      rw [List.map_cons, chunks_cons_off _ _ _ (by simp; exact fun e => hs e.symm), ih]

theorem scriptRow_chunks {α : Type} [DecidableEq α] (x : α) (xs : List α)
    (below : List α → List (Diff α))
    (hl : ∀ ys, chunks Operation.DiffDelete (below ys) = xs.map (fun a => [a]))
    (hr : ∀ ys, chunks Operation.DiffInsert (below ys) = ys.map (fun a => [a]))
    (ys : List α) :
    chunks Operation.DiffDelete (scriptRow x xs below ys)
      = (x :: xs).map (fun a => [a]) ∧
    chunks Operation.DiffInsert (scriptRow x xs below ys)
      = ys.map (fun a => [a]) := by
  induction ys with
  | nil =>
    simp only [scriptRow]
    rw [chunks_cons_on _ _ _ (by simp), chunks_cons_off _ _ _ (by simp), hl, hr]
    simp
  | cons y ys ih =>
    simp only [scriptRow]
    split
    · rename_i hxy
      rw [chunks_cons_on _ _ _ (by simp), chunks_cons_on _ _ _ (by simp), hl, hr]
      simp [hxy]
    · split
      · rw [chunks_cons_on _ _ _ (by simp), chunks_cons_off _ _ _ (by simp), hl, hr]
        simp
      · rw [chunks_cons_off _ _ _ (by simp), chunks_cons_on _ _ _ (by simp), ih.1, ih.2]
        simp

theorem editScript_chunks {α : Type} [DecidableEq α] (xs ys : List α) :
    chunks Operation.DiffDelete (editScript xs ys) = xs.map (fun a => [a]) ∧
    chunks Operation.DiffInsert (editScript xs ys) = ys.map (fun a => [a]) := by
  induction xs generalizing ys with
  | nil =>
    simp only [editScript]
    rw [chunks_inserts, chunks_inserts]
    simp
  | cons x xs ih =>
    simp only [editScript]
    exact scriptRow_chunks x xs (editScript xs) (fun ys => (ih ys).1) (fun ys => (ih ys).2) ys

theorem editScript_self {α : Type} [DecidableEq α] (xs : List α) :
    AllEqual (editScript xs xs) := by
  induction xs with
  | nil => simp [editScript, AllEqual]
  | cons x xs ih =>
    simp only [editScript, scriptRow, if_true]
    intro d hd
    rcases List.mem_cons.mp hd with h | h
    · rw [h]
    · exact ih d h

/-! ## From tokens back to text -/

theorem detok_append (arr : List GoString) (a b : List Nat) :
    detok arr (a ++ b) = detok arr a ++ detok arr b := by
  simp [detok]

theorem detok_nil (arr : List GoString) : detok arr [] = [] := rfl

theorem DiffCharsToLines_chunks (s : Operation) (ds : List (Diff Nat)) (arr : List GoString) :
    chunks s (DiffCharsToLines ds arr) = (chunks s ds).map (detok arr) := by
  induction ds with
  | nil => rfl
  | cons d ds ih =>
    have e : DiffCharsToLines (d :: ds) arr
        = (⟨d.Typ, detok arr d.Text⟩ : Diff UInt8) :: DiffCharsToLines ds arr := rfl
    rw [e]
    by_cases h : d.Typ = Operation.DiffEqual ∨ d.Typ = s
    · rw [chunks_cons_on s d ds h, chunks_cons_on s ⟨d.Typ, detok arr d.Text⟩ _ h, ih]
      rfl
    · rw [chunks_cons_off s d ds h, chunks_cons_off s ⟨d.Typ, detok arr d.Text⟩ _ h, ih]

theorem DiffCharsToLines_allEqual (ds : List (Diff Nat)) (arr : List GoString)
    (h : AllEqual ds) : AllEqual (DiffCharsToLines ds arr) := by
  intro d hd
  obtain ⟨e, he, rfl⟩ := List.mem_map.mp hd
  exact h e he

theorem lineIndex_getD (arr : List GoString) (l : GoString) (h : l ∈ arr) :
    arr.getD (lineIndex arr l) [] = l := by
  induction arr with
  | nil => simp at h
  | cons a rest ih =>
    by_cases ha : a = l
    · simp [lineIndex, ha]
    · have hl : l ∈ rest := by
        rcases List.mem_cons.mp h with e | e
        · exact absurd e.symm ha
        · exact e
      simp only [lineIndex, ha, if_false, List.getD_cons_succ]
      exact ih hl

theorem tokens_roundtrip (arr L : List GoString) (h : ∀ l ∈ L, l ∈ arr) :
    (L.map (lineIndex arr)).map (fun t => arr.getD t []) = L := by
  induction L with
  | nil => rfl
  | cons l ls ih =>
    simp only [List.map_cons]
    rw [ih (fun x hx => h x (List.mem_cons_of_mem _ hx)), lineIndex_getD arr l (h l (by simp))]

theorem detok_singletons (arr : List GoString) (toks : List Nat) :
    (toks.map (fun a => [a])).map (detok arr) = toks.map (fun t => arr.getD t []) := by
  simp [detok]

/-! ## Dissolving small equalities -/

theorem dissolveSmall_chunks (s : Operation)
    (hs : s = Operation.DiffDelete ∨ s = Operation.DiffInsert)
    (before : Nat × Nat) (ds : List (Diff UInt8)) :
    chunks s (dissolveSmall before ds) = chunks s ds := by
  induction ds generalizing before with
  | nil => rfl
  | cons d ds ih =>
    rcases d with ⟨ty, text⟩
    cases ty
    · simp only [dissolveSmall]
      by_cases h : Operation.DiffDelete = Operation.DiffEqual ∨ Operation.DiffDelete = s
      · rw [chunks_cons_on s _ _ h, chunks_cons_on s _ _ h, ih]
      · rw [chunks_cons_off s _ _ h, chunks_cons_off s _ _ h, ih]
    · simp only [dissolveSmall]
      by_cases h : Operation.DiffInsert = Operation.DiffEqual ∨ Operation.DiffInsert = s
      · rw [chunks_cons_on s _ _ h, chunks_cons_on s _ _ h, ih]
      · rw [chunks_cons_off s _ _ h, chunks_cons_off s _ _ h, ih]
    · simp only [dissolveSmall]
      split
      · rcases hs with hs | hs
        · subst hs
          rw [chunks_cons_on _ _ _ (by simp), chunks_cons_off _ _ _ (by simp),
            chunks_cons_on _ _ _ (by simp), ih]
        · subst hs
          rw [chunks_cons_off _ _ _ (by simp), chunks_cons_on _ _ _ (by simp),
            chunks_cons_on _ _ _ (by simp), ih]
      · rw [chunks_cons_on _ _ _ (by simp), chunks_cons_on _ _ _ (by simp), ih]

theorem dissolveSmall_allEqual (ds : List (Diff UInt8)) (h : AllEqual ds) :
    dissolveSmall (0, 0) ds = ds := by
  induction ds with
  | nil => rfl
  | cons d ds ih =>
    rcases d with ⟨ty, text⟩
    have hty : ty = Operation.DiffEqual := h ⟨ty, text⟩ (by simp)
    subst hty
    have ih2 := ih (fun x hx => h x (List.mem_cons_of_mem _ hx))
    simp only [dissolveSmall]
    rw [if_neg, ih2]
    rintro ⟨h1, h2, _⟩
    simp only [Nat.max_self] at h2
    omega

/-! ## The operation list of two contents -/

theorem lineArray_mem (t1 t2 : GoString) :
    (∀ l ∈ splitLines t1, l ∈ (splitLines t1 ++ splitLines t2).dedup) ∧
    (∀ l ∈ splitLines t2, l ∈ (splitLines t1 ++ splitLines t2).dedup) := by
  constructor <;> intro l hl <;> rw [List.mem_dedup] <;> simp [hl]

theorem pipeline_chunks (s : Operation)
    (hs : s = Operation.DiffDelete ∨ s = Operation.DiffInsert)
    (arr : List GoString) (script : List (Diff Nat)) :
    (chunks s (DiffCleanupSemantic (DiffCharsToLines (mergeOps script) arr))).flatten
      = ((chunks s script).map (detok arr)).flatten := by
  unfold DiffCleanupSemantic
  have h1 := mergeOps_flatten (fun x : GoString => x) (fun _ _ => rfl) rfl s
    (dissolveSmall (0, 0) (DiffCharsToLines (mergeOps script) arr))
  simp only [List.map_id_fun', id_eq] at h1
  rw [h1, dissolveSmall_chunks s hs, DiffCharsToLines_chunks,
    mergeOps_flatten (detok arr) (detok_append arr) (detok_nil arr)]

theorem diffOps_left (A B : GoString) :
    (chunks Operation.DiffDelete (diffOps A B)).flatten = prep A := by
  have hp := pipeline_chunks Operation.DiffDelete (Or.inl rfl)
    (DiffLinesToChars (prep A) (prep B)).2.2
    (editScript (DiffLinesToChars (prep A) (prep B)).1 (DiffLinesToChars (prep A) (prep B)).2.1)
  have hc : (chunks Operation.DiffDelete
      (editScript (DiffLinesToChars (prep A) (prep B)).1
        (DiffLinesToChars (prep A) (prep B)).2.1)).map
      (detok (DiffLinesToChars (prep A) (prep B)).2.2) = splitLines (prep A) := by
    rw [(editScript_chunks _ _).1, detok_singletons]
    exact tokens_roundtrip _ _ (lineArray_mem (prep A) (prep B)).1
  rw [hc] at hp
  rw [← splitLines_join (prep A)]
  exact hp

theorem diffOps_right (A B : GoString) :
    (chunks Operation.DiffInsert (diffOps A B)).flatten = prep B := by
  have hp := pipeline_chunks Operation.DiffInsert (Or.inr rfl)
    (DiffLinesToChars (prep A) (prep B)).2.2
    (editScript (DiffLinesToChars (prep A) (prep B)).1 (DiffLinesToChars (prep A) (prep B)).2.1)
  have hc : (chunks Operation.DiffInsert
      (editScript (DiffLinesToChars (prep A) (prep B)).1
        (DiffLinesToChars (prep A) (prep B)).2.1)).map
      (detok (DiffLinesToChars (prep A) (prep B)).2.2) = splitLines (prep B) := by
    rw [(editScript_chunks _ _).2, detok_singletons]
    exact tokens_roundtrip _ _ (lineArray_mem (prep A) (prep B)).2
  rw [hc] at hp
  rw [← splitLines_join (prep B)]
  exact hp

theorem diffOps_self (A : GoString) : AllEqual (diffOps A A) := by
  unfold diffOps DiffCleanupSemantic DiffMain
  simp only
  have h1 : AllEqual (DiffCharsToLines (mergeOps (editScript (DiffLinesToChars (prep A) (prep A)).1
      (DiffLinesToChars (prep A) (prep A)).2.1)) (DiffLinesToChars (prep A) (prep A)).2.2) := by
    apply DiffCharsToLines_allEqual
    apply mergeOps_allEqual
    exact editScript_self _
  rw [dissolveSmall_allEqual _ h1]
  exact mergeOps_allEqual _ h1

/-- C1: for every pair of texts, in the operation list that `renderDiff`
iterates over, the text of the Equal and Delete operations, concatenated in
order, is the normalised first text, and the text of the Equal and Insert
operations, concatenated in order, is the normalised second text. -/
theorem C1_reconstruction (A B : GoString) :
    (chunks Operation.DiffDelete (diffOps A B)).flatten = prep A ∧
    (chunks Operation.DiffInsert (diffOps A B)).flatten = prep B :=
  ⟨diffOps_left A B, diffOps_right A B⟩

/-! ## Identical contents -/

theorem rowsFrom_allEqual (ty : Operation) (hty : ty ≠ Operation.DiffEqual)
    (ds : List (Diff UInt8)) (h : AllEqual ds) : rowsFrom ty ds = 0 := by
  induction ds with
  | nil => rfl
  | cons d ds ih =>
    rw [rowsFrom_cons, ih (fun x hx => h x (List.mem_cons_of_mem _ hx))]
    have hd : d.Typ = Operation.DiffEqual := h d (by simp)
    have hne : ¬ d.Typ = ty := by
      rw [hd]
      exact fun e => hty e.symm
    simp [share, hne]

theorem renderOps_allEqual (lg : Lipgloss) (m : model) (ds : List (Diff UInt8))
    (h : AllEqual ds) :
    (renderOps lg m ds).1 = some (noChanges lg) ∧
    (renderOps lg m ds).2.added = 0 ∧ (renderOps lg m ds).2.deleted = 0 := by
  have hc := expansion_counts lg ds
  have ha : (expansion lg ds).added = 0 := by
    rw [hc.1]; exact rowsFrom_allEqual _ (by simp) ds h
  have hd : (expansion lg ds).deleted = 0 := by
    rw [hc.2.2.1]; exact rowsFrom_allEqual _ (by simp) ds h
  unfold renderOps
  simp [ha, hd]

/-- C7: for every text `A`, every terminal width and every earlier value of
the statistics, `renderDiff` with both contents equal to `A` iterates over an
operation list without Delete and Insert operations, leaves `added = 0` and
`deleted = 0`, and returns the "no changes" notice. -/
theorem C7_identical_contents (lg : Lipgloss) (A : GoString) (width : Int) (a d : Nat) :
    (∀ op ∈ diffOps A A, op.Typ = Operation.DiffEqual) ∧
    (renderDiff lg ⟨A, A, width, a, d⟩).2.added = 0 ∧
    (renderDiff lg ⟨A, A, width, a, d⟩).2.deleted = 0 ∧
    (renderDiff lg ⟨A, A, width, a, d⟩).1 = some (noChanges lg) := by
  have h := renderOps_allEqual lg ⟨A, A, width, a, d⟩ (diffOps A A) (diffOps_self A)
  exact ⟨diffOps_self A, h.2.1, h.2.2, h.1⟩

/-! ## Rows and source lines -/

theorem addRow_fold_rows (lg : Lipgloss) (ty : Operation) (ps : List GoString) (st : Expansion) :
    (∃ newL, leftRows (ps.foldl (addRow lg ty) st).lines = leftRows st.lines ++ newL ∧
      List.Forall₂ (LeftMatch lg) newL (if ty = Operation.DiffInsert then [] else ps)) ∧
    (∃ newR, rightRows (ps.foldl (addRow lg ty) st).lines = rightRows st.lines ++ newR ∧
      List.Forall₂ (RightMatch lg) newR (if ty = Operation.DiffDelete then [] else ps)) := by
  induction ps generalizing st with
  | nil =>
    exact ⟨⟨[], by simp, by simp⟩, ⟨[], by simp, by simp⟩⟩
  | cons p ps ih =>
    obtain ⟨⟨newL, l1, l2⟩, ⟨newR, r1, r2⟩⟩ := ih (addRow lg ty st p)
    rw [List.foldl_cons, l1, r1]
    cases ty
    · refine ⟨⟨⟨fmtD st.lIdx, lg.Render removedStyle p, [], lg.Render dimStyle [126]⟩ :: newL,
        ?_, ?_⟩, ⟨newR, ?_, ?_⟩⟩
      · simp [addRow, leftRows, List.filter_append, fmtD_isEmpty]
      · simp only [reduceCtorEq, if_false] at l2 ⊢
        exact List.Forall₂.cons (Or.inr rfl) l2
      · simp [addRow, rightRows, List.filter_append]
      · simpa using r2
    · refine ⟨⟨newL, ?_, ?_⟩,
        ⟨⟨[], lg.Render dimStyle [126], fmtD st.rIdx, lg.Render addedStyle p⟩ :: newR, ?_, ?_⟩⟩
      · simp [addRow, leftRows, List.filter_append]
      · simpa using l2
      · simp [addRow, rightRows, List.filter_append, fmtD_isEmpty]
      · simp only [reduceCtorEq, if_false] at r2 ⊢
        exact List.Forall₂.cons (Or.inr rfl) r2
    · refine ⟨⟨⟨fmtD st.lIdx, lg.Render baseStyle p, fmtD st.rIdx, lg.Render baseStyle p⟩ :: newL,
        ?_, ?_⟩,
        ⟨⟨fmtD st.lIdx, lg.Render baseStyle p, fmtD st.rIdx, lg.Render baseStyle p⟩ :: newR,
        ?_, ?_⟩⟩
      · simp [addRow, leftRows, List.filter_append, fmtD_isEmpty]
      · simp only [reduceCtorEq, if_false] at l2 ⊢
        exact List.Forall₂.cons (Or.inl rfl) l2
      · simp [addRow, rightRows, List.filter_append, fmtD_isEmpty]
      · simp only [reduceCtorEq, if_false] at r2 ⊢
        exact List.Forall₂.cons (Or.inl rfl) r2

theorem forall2_append {α β : Type} (R : α → β → Prop) (a1 a2 : List α) (b1 b2 : List β)
    (h1 : List.Forall₂ R a1 b1) (h2 : List.Forall₂ R a2 b2) :
    List.Forall₂ R (a1 ++ a2) (b1 ++ b2) := by
  induction h1 with
  | nil => exact h2
  | cons h _ ih => exact List.Forall₂.cons h ih

theorem expansion_rows_from (lg : Lipgloss) (ds : List (Diff UInt8)) (st : Expansion) :
    (∃ newL, leftRows (ds.foldl (expandOp lg) st).lines = leftRows st.lines ++ newL ∧
      List.Forall₂ (LeftMatch lg) newL
        ((chunks Operation.DiffDelete ds).flatMap (fun c => Split (TrimSuffix c)))) ∧
    (∃ newR, rightRows (ds.foldl (expandOp lg) st).lines = rightRows st.lines ++ newR ∧
      List.Forall₂ (RightMatch lg) newR
        ((chunks Operation.DiffInsert ds).flatMap (fun c => Split (TrimSuffix c)))) := by
  induction ds generalizing st with
  | nil => exact ⟨⟨[], by simp, by simp [chunks]⟩, ⟨[], by simp, by simp [chunks]⟩⟩
  | cons d ds ih =>
    obtain ⟨⟨newL, l1, l2⟩, ⟨newR, r1, r2⟩⟩ := ih (expandOp lg st d)
    obtain ⟨⟨headL, hl1, hl2⟩, ⟨headR, hr1, hr2⟩⟩ := addRow_fold_rows lg d.Typ (parts d) st
    rw [List.foldl_cons]
    refine ⟨⟨headL ++ newL, ?_, ?_⟩, ⟨headR ++ newR, ?_, ?_⟩⟩
    · rw [l1]
      unfold expandOp
      rw [hl1, List.append_assoc]
    · by_cases h : d.Typ = Operation.DiffInsert
      · rw [if_pos h] at hl2
        cases hl2
        rw [chunks_cons_off _ _ _ (by simp [h])]
        simpa using l2
      · rw [if_neg h] at hl2
        have hon : d.Typ = Operation.DiffEqual ∨ d.Typ = Operation.DiffDelete := by
          cases hd : d.Typ
          · exact Or.inr rfl
          · exact absurd hd h
          · exact Or.inl rfl
        rw [chunks_cons_on _ _ _ hon, List.flatMap_cons]
        exact forall2_append _ _ _ _ _ hl2 l2
    · rw [r1]
      unfold expandOp
      rw [hr1, List.append_assoc]
    · by_cases h : d.Typ = Operation.DiffDelete
      · rw [if_pos h] at hr2
        cases hr2
        rw [chunks_cons_off _ _ _ (by simp [h])]
        simpa using r2
      · rw [if_neg h] at hr2
        have hon : d.Typ = Operation.DiffEqual ∨ d.Typ = Operation.DiffInsert := by
          cases hd : d.Typ
          · exact absurd hd h
          · exact Or.inr rfl
          · exact Or.inl rfl
        rw [chunks_cons_on _ _ _ hon, List.flatMap_cons]
        exact forall2_append _ _ _ _ _ hr2 r2

theorem leftRows_nums (rows : List diffLine) :
    (leftRows rows).map (fun r => r.lNum) = leftNums rows := by
  unfold leftRows leftNums
  rw [List.filter_map]
  rfl

theorem rightRows_nums (rows : List diffLine) :
    (rightRows rows).map (fun r => r.rNum) = rightNums rows := by
  unfold rightRows rightNums
  rw [List.filter_map]
  rfl

/-- What the expansion loop gives for operations that are blocks of whole
lines: when, on each side, no operation text is empty and every operation text
that is followed by another one ends with a line feed, the rows that carry a
left line number correspond one-to-one and in order to the lines of the text
that the Equal and Delete operations spell, numbered from 1, and the rows that
carry a right line number correspond in the same way to the lines of the text
that the Equal and Insert operations spell. -/
theorem rows_match_whole_line_blocks (lg : Lipgloss) (ops : List (Diff UInt8))
    (hl : GoodText (chunks Operation.DiffDelete ops))
    (hr : GoodText (chunks Operation.DiffInsert ops)) :
    List.Forall₂ (LeftMatch lg) (leftRows (expansion lg ops).lines)
      (sourceLines (chunks Operation.DiffDelete ops).flatten) ∧
    (leftRows (expansion lg ops).lines).map (fun r => r.lNum)
      = (List.range' 1 (sourceLines (chunks Operation.DiffDelete ops).flatten).length).map fmtD ∧
    List.Forall₂ (RightMatch lg) (rightRows (expansion lg ops).lines)
      (sourceLines (chunks Operation.DiffInsert ops).flatten) ∧
    (rightRows (expansion lg ops).lines).map (fun r => r.rNum)
      = (List.range' 1 (sourceLines (chunks Operation.DiffInsert ops).flatten).length).map
          fmtD := by
  obtain ⟨⟨newL, l1, l2⟩, ⟨newR, r1, r2⟩⟩ := expansion_rows_from lg ops Expansion.init
  rw [GoodText_parts _ hl] at l2
  rw [GoodText_parts _ hr] at r2
  have el : leftRows (expansion lg ops).lines = newL := by
    unfold expansion
    rw [l1]
    rfl
  have er : rightRows (expansion lg ops).lines = newR := by
    unfold expansion
    rw [r1]
    rfl
  obtain ⟨_, _, n3, n4⟩ := NumInv_expansion lg ops
  have hl2 := l2.length_eq
  have hr2 := r2.length_eq
  have kl : (expansion lg ops).lIdx - 1
      = (sourceLines (chunks Operation.DiffDelete ops).flatten).length := by
    have := congrArg List.length n3
    rw [← leftRows_nums, el] at this
    simp at this
    omega
  have kr : (expansion lg ops).rIdx - 1
      = (sourceLines (chunks Operation.DiffInsert ops).flatten).length := by
    have := congrArg List.length n4
    rw [← rightRows_nums, er] at this
    simp at this
    omega
  refine ⟨by rw [el]; exact l2, ?_, by rw [er]; exact r2, ?_⟩
  · rw [leftRows_nums, n3, kl]
  · rw [rightRows_nums, n4, kr]

/-- C3 (evaluation at the failing input): for the contents `"hello\nworld\n"`
and `"world\nhello\n"` the operation list is `Delete "hello\nworld"`,
`Insert "world\nhello"`, `Equal "\n"`.  It spells both normalised texts, each
of which has two lines, and the expansion loop builds five rows of which three
carry a left line number and three a right line number: the last row, numbered
3 on both sides, shows the empty text and belongs to no source line.  For the
operation list of the example of the specification the rows do carry the left
numbers `1, 2, _, 3` and the right numbers `1, _, 2, 3`. -/
theorem C3_phantom_row_for_swapped_lines (lg : Lipgloss) :
    (chunks Operation.DiffDelete swappedOps).flatten = prep helloWorld ∧
    (chunks Operation.DiffInsert swappedOps).flatten = prep worldHello ∧
    sourceLines (prep helloWorld) = [[104, 101, 108, 108, 111], [119, 111, 114, 108, 100]] ∧
    sourceLines (prep worldHello) = [[119, 111, 114, 108, 100], [104, 101, 108, 108, 111]] ∧
    (expansion lg swappedOps).lines
      = [⟨[49], lg.Render removedStyle [104, 101, 108, 108, 111], [], lg.Render dimStyle [126]⟩,
         ⟨[50], lg.Render removedStyle [119, 111, 114, 108, 100], [], lg.Render dimStyle [126]⟩,
         ⟨[], lg.Render dimStyle [126], [49], lg.Render addedStyle [119, 111, 114, 108, 100]⟩,
         ⟨[], lg.Render dimStyle [126], [50], lg.Render addedStyle [104, 101, 108, 108, 111]⟩,
         ⟨[51], lg.Render baseStyle [], [51], lg.Render baseStyle []⟩] ∧
    (leftRows (expansion lg swappedOps).lines).length = 3 ∧
    (rightRows (expansion lg swappedOps).lines).length = 3 ∧
    (expansion lg exampleOps).lines.map (fun r => (r.lNum, r.rNum))
      = [([49], [49]), ([50], []), ([], [50]), ([51], [51])] := by
  have hp : ∀ ty t, parts ⟨ty, t⟩ = Split (TrimSuffix t) := fun _ _ => rfl
  have h1 : Split (TrimSuffix [104, 101, 108, 108, 111, 10, 119, 111, 114, 108, 100])
      = [[104, 101, 108, 108, 111], [119, 111, 114, 108, 100]] := by decide
  have h2 : Split (TrimSuffix [119, 111, 114, 108, 100, 10, 104, 101, 108, 108, 111])
      = [[119, 111, 114, 108, 100], [104, 101, 108, 108, 111]] := by decide
  have h3 : Split (TrimSuffix [10]) = [[]] := by decide
  have e1 : Split (TrimSuffix [97, 10]) = [[97]] := by decide
  have e2 : Split (TrimSuffix [98, 10]) = [[98]] := by decide
  have e3 : Split (TrimSuffix [120, 10]) = [[120]] := by decide
  have e4 : Split (TrimSuffix [99, 10]) = [[99]] := by decide
  have f1 : fmtD 1 = [49] := by decide
  have f2 : fmtD 2 = [50] := by decide
  have f3 : fmtD 3 = [51] := by decide
  have rows : (expansion lg swappedOps).lines
      = [⟨[49], lg.Render removedStyle [104, 101, 108, 108, 111], [], lg.Render dimStyle [126]⟩,
         ⟨[50], lg.Render removedStyle [119, 111, 114, 108, 100], [], lg.Render dimStyle [126]⟩,
         ⟨[], lg.Render dimStyle [126], [49], lg.Render addedStyle [119, 111, 114, 108, 100]⟩,
         ⟨[], lg.Render dimStyle [126], [50], lg.Render addedStyle [104, 101, 108, 108, 111]⟩,
         ⟨[51], lg.Render baseStyle [], [51], lg.Render baseStyle []⟩] := by
    simp [expansion, swappedOps, expandOp, hp, h1, h2, h3, addRow, Expansion.init, f1, f2, f3]
  refine ⟨by decide, by decide, by decide, by decide, rows, ?_, ?_, ?_⟩
  · rw [rows]; rfl
  · rw [rows]; rfl
  · simp [expansion, exampleOps, expandOp, hp, e1, e2, e3, e4, addRow, Expansion.init, f1, f2, f3]

end AtlasDiff
